import Mathlib

/-!
Verification development for the approximate frequency-tracking core of the
claims-service repository (`src/claim_process/count_min_sketch.py`).

Modelling conventions for the shallow embedding:

* Python `Decimal` amounts and the numpy `float64` sketch cells are both
  modelled as exact rationals (`ℚ`).  The spec (§9, Design Notes) treats
  exact-vs-floating cell accumulation as an implementation choice; the
  embedding uses exact arithmetic throughout.
* The salted SHA-256 hash `_hash(item, seed)` is a fixed deterministic
  function of the row index and the key.  It is modelled by an arbitrary
  function parameter `hf : ℕ → String → ℕ` (the raw hash integer), reduced
  modulo `width` exactly as the source does.  Theorems are universally
  quantified over `hf`; concrete instantiations use simple concrete
  functions.  Counterexamples are arranged so that they do not depend on
  the choice of `hf` (e.g. `width = 1` forces every key into column 0 for
  any hash function whatsoever, including the source's SHA-256).
* Python `dict`s (`provider_map`, `claim_counts`) are modelled as
  insertion-ordered association lists with the usual dict operations.
* The `heapq` min-heap `top_providers` is modelled as a list kept sorted in
  ascending `net_fee_total` order: `heapq` guarantees that the root
  (index 0) is a minimum element, `heappop` removes a minimum and
  `heappush`/`heapify` restore the heap shape; a fully sorted list is a
  refinement of this contract with the same observable behaviour
  (root value, popped value, and element multiset).
* Fallible operations (`merge` with mismatched dimensions, numpy's
  rejection of negative dimensions at construction, the `IndexError` that
  `_update_top_k` hits on an empty heap when `k ≤ 0`) return `Option`,
  `none` being the raised-exception outcome.
-/

/-! ## Association-list model of Python dicts -/

/-- Python dict lookup `m.get(key)`: first (unique) binding of `key`. -/
def lookupD {β : Type} : List (String × β) → String → Option β
  | [], _ => none
  | kv :: rest, key => if kv.1 = key then some kv.2 else lookupD rest key

/-- Python dict write `m[key] = v`: update in place if present, else append
(Python dicts preserve insertion order). -/
def insertD {β : Type} : List (String × β) → String → β → List (String × β)
  | [], key, v => [(key, v)]
  | kv :: rest, key, v =>
      if kv.1 = key then (kv.1, v) :: rest else kv :: insertD rest key v

/-- Python dict `del m[key]`.  Removes every binding of `key`; on the
assoc lists built by `insertD` keys are unique, so this matches `del`
(which in the source is only reached with the key present). -/
def eraseD {β : Type} : List (String × β) → String → List (String × β)
  | [], _ => []
  | kv :: rest, key =>
      if kv.1 = key then eraseD rest key else kv :: eraseD rest key

/-- Keys of a dict, in insertion order. -/
def keysD {β : Type} (m : List (String × β)) : List String := m.map Prod.fst

@[simp] theorem keysD_nil {β : Type} : keysD ([] : List (String × β)) = [] := rfl

@[simp] theorem keysD_cons {β : Type} (kv : String × β) (rest : List (String × β)) :
    keysD (kv :: rest) = kv.1 :: keysD rest := rfl

@[simp] theorem lookupD_nil {β : Type} (key : String) :
    lookupD ([] : List (String × β)) key = none := rfl

theorem lookupD_cons {β : Type} (kv : String × β) (rest : List (String × β)) (key : String) :
    lookupD (kv :: rest) key = if kv.1 = key then some kv.2 else lookupD rest key := rfl

theorem lookupD_isSome_iff_mem {β : Type} (m : List (String × β)) (key : String) :
    (lookupD m key).isSome = true ↔ key ∈ keysD m := by
  induction m with
  | nil => simp
  | cons kv rest ih =>
      by_cases h : kv.1 = key
      · subst h; simp [lookupD]
      · simp [lookupD, h, ih, Ne.symm h]

theorem lookupD_eq_none_iff_not_mem {β : Type} (m : List (String × β)) (key : String) :
    lookupD m key = none ↔ key ∉ keysD m := by
  rw [← lookupD_isSome_iff_mem]
  cases lookupD m key <;> simp

theorem lookupD_insertD_self {β : Type} (m : List (String × β)) (key : String) (v : β) :
    lookupD (insertD m key v) key = some v := by
  induction m with
  | nil => simp [insertD, lookupD]
  | cons kv rest ih =>
      by_cases h : kv.1 = key
      · simp [insertD, h, lookupD]
      · simp [insertD, h, lookupD, ih]

theorem lookupD_insertD_ne {β : Type} (m : List (String × β)) (key x : String) (v : β)
    (h : x ≠ key) : lookupD (insertD m key v) x = lookupD m x := by
  have hk' : key ≠ x := Ne.symm h
  induction m with
  | nil => simp [insertD, lookupD, hk']
  | cons kv rest ih =>
      by_cases hk : kv.1 = key
      · subst hk
        simp [insertD, lookupD, hk']
      · simp [insertD, hk, lookupD, ih]

theorem keysD_insertD_of_present {β : Type} (m : List (String × β)) (key : String) (v : β)
    (h : (lookupD m key).isSome = true) : keysD (insertD m key v) = keysD m := by
  induction m with
  | nil => simp at h
  | cons kv rest ih =>
      by_cases hk : kv.1 = key
      · simp [insertD, hk]
      · rw [lookupD_cons, if_neg hk] at h
        simp [insertD, hk, ih h]

theorem keysD_insertD_of_absent {β : Type} (m : List (String × β)) (key : String) (v : β)
    (h : lookupD m key = none) : keysD (insertD m key v) = keysD m ++ [key] := by
  induction m with
  | nil => simp [insertD]
  | cons kv rest ih =>
      by_cases hk : kv.1 = key
      · rw [lookupD_cons, if_pos hk] at h
        exact absurd h (by simp)
      · rw [lookupD_cons, if_neg hk] at h
        simp [insertD, hk, ih h]

theorem length_insertD_of_absent {β : Type} (m : List (String × β)) (key : String) (v : β)
    (h : lookupD m key = none) : (insertD m key v).length = m.length + 1 := by
  have := congrArg List.length (keysD_insertD_of_absent m key v h)
  simpa [keysD] using this

theorem length_insertD_of_present {β : Type} (m : List (String × β)) (key : String) (v : β)
    (h : (lookupD m key).isSome = true) : (insertD m key v).length = m.length := by
  have := congrArg List.length (keysD_insertD_of_present m key v h)
  simpa [keysD] using this

theorem lookupD_eraseD_self {β : Type} (m : List (String × β)) (key : String) :
    lookupD (eraseD m key) key = none := by
  induction m with
  | nil => simp [eraseD]
  | cons kv rest ih =>
      by_cases hk : kv.1 = key
      · simp [eraseD, hk, ih]
      · simp [eraseD, hk, lookupD, ih]

theorem lookupD_eraseD_ne {β : Type} (m : List (String × β)) (key x : String)
    (h : x ≠ key) : lookupD (eraseD m key) x = lookupD m x := by
  induction m with
  | nil => simp [eraseD]
  | cons kv rest ih =>
      by_cases hk : kv.1 = key
      · subst hk
        simp [eraseD, lookupD, Ne.symm h, ih]
      · simp [eraseD, hk, lookupD, ih]

theorem mem_keysD_eraseD {β : Type} (m : List (String × β)) (key x : String) :
    x ∈ keysD (eraseD m key) ↔ x ∈ keysD m ∧ x ≠ key := by
  induction m with
  | nil => simp [eraseD]
  | cons kv rest ih =>
      by_cases hk : kv.1 = key
      · subst hk
        have he : eraseD (kv :: rest) kv.1 = eraseD rest kv.1 := by simp [eraseD]
        rw [he, ih, keysD_cons]
        simp only [List.mem_cons]
        constructor
        · rintro ⟨hx, hne⟩; exact ⟨Or.inr hx, hne⟩
        · rintro ⟨rfl | hx, hne⟩
          · exact absurd rfl hne
          · exact ⟨hx, hne⟩
      · have he : eraseD (kv :: rest) key = kv :: eraseD rest key := by simp [eraseD, hk]
        rw [he, keysD_cons, keysD_cons]
        simp only [List.mem_cons, ih]
        constructor
        · rintro (rfl | ⟨hx, hne⟩)
          · exact ⟨Or.inl rfl, hk⟩
          · exact ⟨Or.inr hx, hne⟩
        · rintro ⟨rfl | hx, hne⟩
          · exact Or.inl rfl
          · exact Or.inr ⟨hx, hne⟩

theorem nodup_keysD_eraseD {β : Type} (m : List (String × β)) (key : String)
    (h : (keysD m).Nodup) : (keysD (eraseD m key)).Nodup := by
  induction m with
  | nil => simp [eraseD]
  | cons kv rest ih =>
      rw [keysD_cons, List.nodup_cons] at h
      by_cases hk : kv.1 = key
      · have he : eraseD (kv :: rest) key = eraseD rest key := by simp [eraseD, hk]
        rw [he]; exact ih h.2
      · have he : eraseD (kv :: rest) key = kv :: eraseD rest key := by simp [eraseD, hk]
        rw [he, keysD_cons, List.nodup_cons]
        refine ⟨fun hx => ?_, ih h.2⟩
        exact h.1 ((mem_keysD_eraseD rest key kv.1).mp hx).1

theorem eraseD_of_not_mem {β : Type} (m : List (String × β)) (key : String)
    (h : key ∉ keysD m) : eraseD m key = m := by
  induction m with
  | nil => simp [eraseD]
  | cons kv rest ih =>
      rw [keysD_cons, List.mem_cons, not_or] at h
      have hk : kv.1 ≠ key := fun hh => h.1 hh.symm
      simp [eraseD, hk, ih h.2]

theorem length_eraseD_of_mem {β : Type} (m : List (String × β)) (key : String)
    (hnd : (keysD m).Nodup) (h : key ∈ keysD m) :
    (eraseD m key).length + 1 = m.length := by
  induction m with
  | nil => simp at h
  | cons kv rest ih =>
      rw [keysD_cons, List.nodup_cons] at hnd
      by_cases hk : kv.1 = key
      · subst hk
        have he : eraseD (kv :: rest) kv.1 = eraseD rest kv.1 := by simp [eraseD]
        rw [he, eraseD_of_not_mem rest kv.1 hnd.1]
        simp
      · rw [keysD_cons, List.mem_cons] at h
        rcases h with h | h
        · exact absurd h.symm hk
        · have he : eraseD (kv :: rest) key = kv :: eraseD rest key := by simp [eraseD, hk]
          rw [he, List.length_cons, List.length_cons, ← ih hnd.2 h]

/-! ## The Count-Min Sketch (`CountMinSketch` in the source) -/

/-- State of `CountMinSketch`: `width`/`depth` as fixed at construction,
the `depth × width` counter table (cells outside that rectangle are never
touched and stay `0`), and the exact running `total_sum`. -/
structure CountMinSketch where
  width : ℕ
  depth : ℕ
  table : ℕ → ℕ → ℚ
  total_sum : ℚ

namespace CountMinSketch

/-- Constructor `CountMinSketch.__init__(width, depth)`.  The constructor performs no
validation of its own; the only failure is numpy's
`np.zeros((depth, width))` raising on a *negative* dimension (zero
dimensions are accepted by numpy), modelled as `none`. -/
def init (width depth : Int) : Option CountMinSketch :=
  if width < 0 ∨ depth < 0 then none
  else some { width := width.toNat, depth := depth.toNat,
              table := fun _ _ => 0, total_sum := 0 }

/-- Hash `_hash(item, seed)`: the raw hash integer `hf seed item` (SHA-256 of the
salted key in the source) reduced modulo `width`. -/
def hashIdx (hf : ℕ → String → ℕ) (s : CountMinSketch) (i : ℕ) (item : String) : ℕ :=
  hf i item % s.width

/-- Method `add(provider_npi, net_fee)`: add the amount to one hashed cell per row
and to `total_sum`.  The source performs no validation of the amount
(negative amounts are folded in like any other). -/
def add (hf : ℕ → String → ℕ) (s : CountMinSketch) (provider_npi : String)
    (net_fee : ℚ) : CountMinSketch :=
  { s with
    table := fun i j =>
      if i < s.depth ∧ j = s.hashIdx hf i provider_npi then
        s.table i j + net_fee
      else s.table i j,
    total_sum := s.total_sum + net_fee }

end CountMinSketch

/-- Minimum of a list of rationals; `minimumD [] = 0` stands in for the
`float('inf')` starting value of `estimate` in the (unreachable for any
constructed-and-used sketch) `depth = 0` case. -/
def minimumD : List ℚ → ℚ
  | [] => 0
  | x :: xs => xs.foldl min x

namespace CountMinSketch

/-- Method `estimate(provider_npi)`: minimum of the hashed cell of each row. -/
def estimate (hf : ℕ → String → ℕ) (s : CountMinSketch) (provider_npi : String) : ℚ :=
  minimumD ((List.range s.depth).map fun i => s.table i (s.hashIdx hf i provider_npi))

/-- Method `merge(other)`: `ValueError` (modelled `none`) unless dimensions match,
otherwise element-wise table addition plus `total_sum` addition.  On the
error path the receiver is left untouched (the caller keeps `s` as is). -/
def merge (s other : CountMinSketch) : Option CountMinSketch :=
  if s.width ≠ other.width ∨ s.depth ≠ other.depth then none
  else some { s with
    table := fun i j => s.table i j + other.table i j,
    total_sum := s.total_sum + other.total_sum }

/-- Method `clear()`: zero the table and reset `total_sum`. -/
def clear (s : CountMinSketch) : CountMinSketch :=
  { s with table := fun _ _ => 0, total_sum := 0 }

/-- The exact `float64` value of Python's `math.e`, as a rational. -/
def eFloat : ℚ := 6121026514868073 / 2251799813685248

/-- Method `error_estimate()`: `total_sum * (e / width)` (float rounding of the
division abstracted to exact rationals). -/
def error_estimate (s : CountMinSketch) : ℚ :=
  s.total_sum * (eFloat / (s.width : ℚ))

end CountMinSketch

/-! Basic frame facts about sketch operations. -/

@[simp] theorem CountMinSketch.add_width (hf : ℕ → String → ℕ) (s : CountMinSketch)
    (key : String) (a : ℚ) : (s.add hf key a).width = s.width := rfl

@[simp] theorem CountMinSketch.add_depth (hf : ℕ → String → ℕ) (s : CountMinSketch)
    (key : String) (a : ℚ) : (s.add hf key a).depth = s.depth := rfl

@[simp] theorem CountMinSketch.add_total_sum (hf : ℕ → String → ℕ) (s : CountMinSketch)
    (key : String) (a : ℚ) : (s.add hf key a).total_sum = s.total_sum + a := rfl

theorem CountMinSketch.init_elim {w d : Int} {s : CountMinSketch}
    (h : CountMinSketch.init w d = some s) :
    s.width = w.toNat ∧ s.depth = d.toNat ∧ s.table = (fun _ _ => 0) ∧ s.total_sum = 0 := by
  unfold CountMinSketch.init at h
  split at h
  · simp at h
  · cases h
    exact ⟨rfl, rfl, rfl, rfl⟩

/-! ## Sequences of `add` calls on a sketch, and the exact per-key total -/

/-- Fold a list of `(key, amount)` events through `CountMinSketch.add`. -/
def runAdds (hf : ℕ → String → ℕ) (s : CountMinSketch) :
    List (String × ℚ) → CountMinSketch
  | [] => s
  | e :: es => runAdds hf (s.add hf e.1 e.2) es

/-- The exact accumulated total for one key over a sequence of `add` events
(the sum the spec compares estimates against). -/
def trueTotal (key : String) : List (String × ℚ) → ℚ
  | [] => 0
  | e :: es => (if e.1 = key then e.2 else 0) + trueTotal key es

@[simp] theorem runAdds_nil (hf : ℕ → String → ℕ) (s : CountMinSketch) :
    runAdds hf s [] = s := rfl

@[simp] theorem runAdds_cons (hf : ℕ → String → ℕ) (s : CountMinSketch)
    (e : String × ℚ) (es : List (String × ℚ)) :
    runAdds hf s (e :: es) = runAdds hf (s.add hf e.1 e.2) es := rfl

theorem runAdds_width (hf : ℕ → String → ℕ) (es : List (String × ℚ)) :
    ∀ s : CountMinSketch, (runAdds hf s es).width = s.width := by
  induction es with
  | nil => intro s; rfl
  | cons e es ih => intro s; simpa using ih (s.add hf e.1 e.2)

theorem runAdds_depth (hf : ℕ → String → ℕ) (es : List (String × ℚ)) :
    ∀ s : CountMinSketch, (runAdds hf s es).depth = s.depth := by
  induction es with
  | nil => intro s; rfl
  | cons e es ih => intro s; simpa using ih (s.add hf e.1 e.2)

theorem le_foldl_min (c : ℚ) : ∀ (xs : List ℚ) (x : ℚ), c ≤ x →
    (∀ a ∈ xs, c ≤ a) → c ≤ xs.foldl min x := by
  intro xs
  induction xs with
  | nil => intro x hx _; simpa using hx
  | cons a as ih =>
      intro x hx hs
      simp only [List.foldl_cons]
      exact ih (min x a) (le_min hx (hs a (by simp)))
        (fun b hb => hs b (by simp [hb]))

theorem le_minimumD (c : ℚ) (l : List ℚ) (hne : l ≠ [])
    (h : ∀ a ∈ l, c ≤ a) : c ≤ minimumD l := by
  cases l with
  | nil => exact absurd rfl hne
  | cons x xs =>
      exact le_foldl_min c xs x (h x (by simp)) (fun a ha => h a (by simp [ha]))

/-- Core accounting lemma for C1: every cell a key hashes into accumulates at
least that key's exact total (other keys only ever add non-negative mass). -/
theorem runAdds_cell_ge (hf : ℕ → String → ℕ) (key : String) :
    ∀ (es : List (String × ℚ)) (s : CountMinSketch),
      (∀ e ∈ es, 0 ≤ e.2) → ∀ i, i < s.depth →
      s.table i (hf i key % s.width) + trueTotal key es ≤
        (runAdds hf s es).table i (hf i key % s.width) := by
  intro es
  induction es with
  | nil => intro s _ i _; simp [trueTotal]
  | cons e es ih =>
      intro s hpos i hi
      have hpos' : ∀ e' ∈ es, 0 ≤ e'.2 := fun e' he' => hpos e' (by simp [he'])
      have ha : 0 ≤ e.2 := hpos e (by simp)
      have hstep := ih (s.add hf e.1 e.2) hpos' i (by simpa using hi)
      simp only [CountMinSketch.add_width] at hstep
      rw [runAdds_cons]
      refine le_trans ?_ hstep
      by_cases hk : e.1 = key
      · subst hk
        have : (s.add hf e.1 e.2).table i (hf i e.1 % s.width) =
            s.table i (hf i e.1 % s.width) + e.2 := by
          simp [CountMinSketch.add, CountMinSketch.hashIdx, hi]
        rw [this, trueTotal, if_pos rfl]
        linarith
      · have hmono : s.table i (hf i key % s.width) ≤
            (s.add hf e.1 e.2).table i (hf i key % s.width) := by
          unfold CountMinSketch.add
          dsimp only
          split
          · linarith
          · exact le_refl _
        rw [trueTotal, if_neg hk]
        linarith

/-- Estimate stability under an `add` for a key hashing elsewhere in every
row: none of the cells this key's estimate reads are touched. -/
theorem estimate_add_ne (hf : ℕ → String → ℕ) (s : CountMinSketch)
    (x y : String) (a : ℚ)
    (h : ∀ i, i < s.depth → hf i x % s.width ≠ hf i y % s.width) :
    (s.add hf y a).estimate hf x = s.estimate hf x := by
  unfold CountMinSketch.estimate
  have hcells : ((List.range (s.add hf y a).depth).map fun i =>
      (s.add hf y a).table i ((s.add hf y a).hashIdx hf i x)) =
      (List.range s.depth).map fun i => s.table i (s.hashIdx hf i x) := by
    rw [CountMinSketch.add_depth]
    refine List.map_congr_left ?_
    intro i hi
    have hi' : i < s.depth := List.mem_range.mp hi
    have hne : ¬ (i < s.depth ∧ s.hashIdx hf i x = s.hashIdx hf i y) := by
      rintro ⟨_, hcol⟩
      exact h i hi' hcol
    show (if i < s.depth ∧ s.hashIdx hf i x = s.hashIdx hf i y then
        s.table i (s.hashIdx hf i x) + a else s.table i (s.hashIdx hf i x)) =
      s.table i (s.hashIdx hf i x)
    rw [if_neg hne]
  rw [hcells]

/-! ## The Top-K tracker (`TopProvidersTracker` in the source) -/

/-- Dataclass `ProviderNetFee`: one tracked entry of the bounded top-K
collection.  Its `__lt__` compares `net_fee_total` only. -/
structure ProviderNetFee where
  provider_npi : String
  net_fee_total : ℚ
  claim_count : ℕ
deriving DecidableEq

/-- The heap order of `ProviderNetFee.__lt__` made non-strict, as used by
the sorted-list refinement of the `heapq` min-heap. -/
def heapLe (a b : ProviderNetFee) : Prop := a.net_fee_total ≤ b.net_fee_total

/-- Descending order on entries, the order produced by
`sorted(..., key=net_fee_total, reverse=True)` in `get_top_k`. -/
def heapGe (a b : ProviderNetFee) : Prop := b.net_fee_total ≤ a.net_fee_total

instance : DecidableRel heapLe :=
  fun a b => inferInstanceAs (Decidable (a.net_fee_total ≤ b.net_fee_total))

instance : DecidableRel heapGe :=
  fun a b => inferInstanceAs (Decidable (b.net_fee_total ≤ a.net_fee_total))

instance : IsTotal ProviderNetFee heapLe :=
  ⟨fun a b => le_total a.net_fee_total b.net_fee_total⟩

instance : IsTrans ProviderNetFee heapLe :=
  ⟨fun _ _ _ hab hbc => le_trans hab hbc⟩

instance : IsTotal ProviderNetFee heapGe :=
  ⟨fun a b => le_total b.net_fee_total a.net_fee_total⟩

instance : IsTrans ProviderNetFee heapGe :=
  ⟨fun _ _ _ hab hbc => le_trans hbc hab⟩

/-- State of `TopProvidersTracker`.  `top_providers` is the `heapq` min-heap
(modelled as a list sorted ascending by `net_fee_total`; see the header
comment), `provider_map` the exact membership index whose values alias the
heap entries, `claim_counts` the exact per-key event counts. -/
structure TopProvidersTracker where
  k : Int
  sketch : CountMinSketch
  top_providers : List ProviderNetFee
  provider_map : List (String × ProviderNetFee)
  claim_counts : List (String × ℕ)

namespace TopProvidersTracker

/-- Constructor `TopProvidersTracker.__init__(k, width, depth)`: builds the inner sketch
(failing only where the sketch construction fails) and starts with the
bounded collection, membership index and count map all empty.  `k` is not
validated. -/
def init (k width depth : Int) : Option TopProvidersTracker :=
  (CountMinSketch.init width depth).map fun s =>
    { k := k, sketch := s, top_providers := [], provider_map := [], claim_counts := [] }

/-- The in-place mutation of a tracked entry in `_update_top_k`'s
already-present branch: the object's `net_fee_total` and `claim_count` are
overwritten (the heap and the map alias the same object; in the model the
entry is identified by its key). -/
def updEntry (key : String) (total : ℚ) (cnt : ℕ) (p : ProviderNetFee) : ProviderNetFee :=
  if p.provider_npi = key then { p with net_fee_total := total, claim_count := cnt } else p

@[simp] theorem updEntry_npi (key : String) (total : ℚ) (cnt : ℕ) (p : ProviderNetFee) :
    (updEntry key total cnt p).provider_npi = p.provider_npi := by
  unfold updEntry; split <;> rfl

/-- The membership index's view of the same in-place mutation: the entry
stored under the updated key is the very object sitting in the heap, so it
shows the new values; all other bindings are untouched. -/
def updMapVal (key : String) (total : ℚ) (cnt : ℕ)
    (m : List (String × ProviderNetFee)) : List (String × ProviderNetFee) :=
  m.map fun kv => if kv.1 = key then (kv.1, updEntry key total cnt kv.2) else kv

/-- Method `_update_top_k(provider_npi, net_fee_total)`.

* key already tracked: overwrite its entry (both views) and `heapify`
  (modelled as a full re-sort, which the spec explicitly allows);
* fewer than `k` entries: push the new entry into heap and index;
* full: compare against the minimum entry `top_providers[0]`; evict it and
  insert the new entry only on a strictly larger estimate, else do nothing.
  On an empty heap (only reachable when `k ≤ 0`) `top_providers[0]` raises
  `IndexError`, modelled as `none`. -/
def update_top_k (t : TopProvidersTracker) (provider_npi : String)
    (net_fee_total : ℚ) : Option TopProvidersTracker :=
  if (lookupD t.provider_map provider_npi).isSome then
    some { t with
      top_providers :=
        List.insertionSort heapLe
          (t.top_providers.map (updEntry provider_npi net_fee_total
            ((lookupD t.claim_counts provider_npi).getD 0))),
      provider_map :=
        updMapVal provider_npi net_fee_total
          ((lookupD t.claim_counts provider_npi).getD 0) t.provider_map }
  else if (t.top_providers.length : Int) < t.k then
    some { t with
      top_providers := List.orderedInsert heapLe
        { provider_npi := provider_npi, net_fee_total := net_fee_total,
          claim_count := (lookupD t.claim_counts provider_npi).getD 0 }
        t.top_providers,
      provider_map := insertD t.provider_map provider_npi
        { provider_npi := provider_npi, net_fee_total := net_fee_total,
          claim_count := (lookupD t.claim_counts provider_npi).getD 0 } }
  else
    match t.top_providers with
    | [] => none
    | removed :: rest =>
        if removed.net_fee_total < net_fee_total then
          some { t with
            top_providers := List.orderedInsert heapLe
              { provider_npi := provider_npi, net_fee_total := net_fee_total,
                claim_count := (lookupD t.claim_counts provider_npi).getD 0 }
              rest,
            provider_map :=
              insertD (eraseD t.provider_map removed.provider_npi) provider_npi
                { provider_npi := provider_npi, net_fee_total := net_fee_total,
                  claim_count := (lookupD t.claim_counts provider_npi).getD 0 } }
        else some t

/-- Method `add_claim(provider_npi, net_fee)`: fold the amount into the sketch,
bump the exact claim count, take the *fresh* sketch estimate, and run the
admission policy.  No validation of the amount is performed. -/
def add_claim (hf : ℕ → String → ℕ) (t : TopProvidersTracker)
    (provider_npi : String) (net_fee : ℚ) : Option TopProvidersTracker :=
  update_top_k
    { t with
      sketch := t.sketch.add hf provider_npi net_fee,
      claim_counts := insertD t.claim_counts provider_npi
        ((lookupD t.claim_counts provider_npi).getD 0 + 1) }
    provider_npi
    ((t.sketch.add hf provider_npi net_fee).estimate hf provider_npi)

/-- Method `get_top_k()`: all tracked entries, sorted by `net_fee_total`
descending (`sorted(..., reverse=True)` builds a new list). -/
def get_top_k (t : TopProvidersTracker) : List ProviderNetFee :=
  List.insertionSort heapGe t.top_providers

end TopProvidersTracker

/-- Python's `abs` on exact decimals, written out so that it evaluates by
kernel reduction; equal to Mathlib's `|x|` (see `ratAbs_eq_abs`). -/
def ratAbs (x : ℚ) : ℚ := if x < 0 then -x else x

theorem ratAbs_eq_abs (x : ℚ) : ratAbs x = |x| := by
  unfold ratAbs
  rcases lt_or_le x 0 with hx | hx
  · rw [if_pos hx, abs_of_neg hx]
  · rw [if_neg (not_lt.mpr hx), abs_of_nonneg hx]

/-- One row of the `discrepancies` list of `verify_accuracy`. -/
structure Discrepancy where
  provider_npi : String
  heap_value : ℚ
  sketch_estimate : ℚ
  difference : ℚ
deriving DecidableEq

/-- The stats dict returned by `verify_accuracy`. -/
structure VerifyStats where
  heap_size : ℕ
  total_providers : ℕ
  total_net_fees : ℚ
  max_error_estimate : ℚ
  discrepancies : List Discrepancy
deriving DecidableEq

/-- Method `verify_accuracy()`: reads the tracker and reports, per tracked entry,
a discrepancy whenever the live sketch estimate differs from the cached
`net_fee_total` by more than one cent. -/
def verify_accuracy (hf : ℕ → String → ℕ) (t : TopProvidersTracker) : VerifyStats :=
  { heap_size := t.top_providers.length,
    total_providers := t.claim_counts.length,
    total_net_fees := t.sketch.total_sum,
    max_error_estimate := t.sketch.error_estimate,
    discrepancies := t.top_providers.filterMap fun p =>
      let sketch_estimate := t.sketch.estimate hf p.provider_npi
      if ratAbs (sketch_estimate - p.net_fee_total) > 1 / 100 then
        some { provider_npi := p.provider_npi, heap_value := p.net_fee_total,
               sketch_estimate := sketch_estimate,
               difference := ratAbs (sketch_estimate - p.net_fee_total) }
      else none }

/-- View of `get_top_k` as a state transformer: the returned tracker component
records that the call performs no write (Python's `sorted` builds a fresh
list and leaves `top_providers` alone). -/
def get_top_k_st (t : TopProvidersTracker) :
    List ProviderNetFee × TopProvidersTracker :=
  (t.get_top_k, t)

/-- View of `verify_accuracy` as a state transformer: it only reads the heap, the
count map and the sketch. -/
def verify_accuracy_st (hf : ℕ → String → ℕ) (t : TopProvidersTracker) :
    VerifyStats × TopProvidersTracker :=
  (verify_accuracy hf t, t)

/-- Fold a list of `(key, amount)` events through `add_claim`, propagating
a raised exception (`none`). -/
def runEvents (hf : ℕ → String → ℕ) :
    Option TopProvidersTracker → List (String × ℚ) → Option TopProvidersTracker
  | none, _ => none
  | some t, [] => some t
  | some t, e :: es => runEvents hf (t.add_claim hf e.1 e.2) es

@[simp] theorem runEvents_none (hf : ℕ → String → ℕ) (es : List (String × ℚ)) :
    runEvents hf none es = none := by
  cases es <;> rfl

@[simp] theorem runEvents_nil (hf : ℕ → String → ℕ) (t : TopProvidersTracker) :
    runEvents hf (some t) [] = some t := rfl

@[simp] theorem runEvents_cons (hf : ℕ → String → ℕ) (t : TopProvidersTracker)
    (e : String × ℚ) (es : List (String × ℚ)) :
    runEvents hf (some t) (e :: es) = runEvents hf (t.add_claim hf e.1 e.2) es := rfl

/-- Keys of the entries currently in the bounded collection. -/
def heapKeys (t : TopProvidersTracker) : List String :=
  t.top_providers.map ProviderNetFee.provider_npi

/-! ## The heap/index consistency invariant and the admission step lemma -/

theorem heapKeys_map_updEntry (key : String) (total : ℚ) (cnt : ℕ)
    (l : List ProviderNetFee) :
    (l.map (TopProvidersTracker.updEntry key total cnt)).map ProviderNetFee.provider_npi =
      l.map ProviderNetFee.provider_npi := by
  rw [List.map_map]
  exact List.map_congr_left fun p _ => TopProvidersTracker.updEntry_npi key total cnt p

theorem keysD_updMapVal (key : String) (total : ℚ) (cnt : ℕ)
    (m : List (String × ProviderNetFee)) :
    keysD (TopProvidersTracker.updMapVal key total cnt m) = keysD m := by
  unfold TopProvidersTracker.updMapVal keysD
  rw [List.map_map]
  refine List.map_congr_left fun kv _ => ?_
  simp only [Function.comp_apply]
  split <;> rfl

theorem length_updMapVal (key : String) (total : ℚ) (cnt : ℕ)
    (m : List (String × ProviderNetFee)) :
    (TopProvidersTracker.updMapVal key total cnt m).length = m.length :=
  List.length_map m _

/-- Consistency of a tracker state: the heap and the membership index carry
the same duplicate-free key set, have equal sizes, and respect the `k`
bound.  Established at construction and preserved by every `add_claim`. -/
structure Synced (t : TopProvidersTracker) : Prop where
  ndHeap : (heapKeys t).Nodup
  ndMap : (keysD t.provider_map).Nodup
  sync : ∀ x, (lookupD t.provider_map x).isSome = true ↔ x ∈ heapKeys t
  lenEq : t.top_providers.length = t.provider_map.length
  lenLe : (t.top_providers.length : Int) ≤ max t.k 0

theorem Synced_init {k w d : Int} {t0 : TopProvidersTracker}
    (h : TopProvidersTracker.init k w d = some t0) : Synced t0 := by
  unfold TopProvidersTracker.init at h
  cases hcms : CountMinSketch.init w d with
  | none => rw [hcms] at h; simp at h
  | some s =>
      rw [hcms] at h
      simp only [Option.map_some'] at h
      cases h
      refine ⟨by simp [heapKeys], by simp, fun x => by simp [heapKeys], rfl, ?_⟩
      simp only [List.length_nil, Nat.cast_zero]
      exact le_max_right _ _

/-- Master lemma for one `_update_top_k` step: it preserves `Synced` and
the frame (`k`, sketch, counts); every entry of the new heap is either the
freshly (re)written entry for the updated key or an untouched old entry;
and when the key was already tracked or the collection was not yet full,
the new key set is exactly the old one plus the key. -/
theorem update_top_k_spec (t : TopProvidersTracker) (key : String) (est : ℚ)
    (t' : TopProvidersTracker) (hs : Synced t)
    (h : t.update_top_k key est = some t') :
    Synced t' ∧ t'.k = t.k ∧ t'.sketch = t.sketch ∧ t'.claim_counts = t.claim_counts ∧
    (∀ e ∈ t'.top_providers,
        (e.provider_npi = key ∧ e.net_fee_total = est) ∨
        (e ∈ t.top_providers ∧ e.provider_npi ≠ key)) ∧
    (((lookupD t.provider_map key).isSome = true ∨ (t.top_providers.length : Int) < t.k) →
      ∀ x, x ∈ heapKeys t' ↔ (x = key ∨ x ∈ heapKeys t)) := by
  by_cases hpres : (lookupD t.provider_map key).isSome = true
  · -- key already tracked: in-place overwrite plus re-sort
    unfold TopProvidersTracker.update_top_k at h
    rw [if_pos hpres] at h
    have ht' := Option.some.inj h
    subst ht'
    have hpermHeap :
        List.Perm
          (List.insertionSort heapLe
            (t.top_providers.map (TopProvidersTracker.updEntry key est
              ((lookupD t.claim_counts key).getD 0))))
          (t.top_providers.map (TopProvidersTracker.updEntry key est
              ((lookupD t.claim_counts key).getD 0))) :=
      List.perm_insertionSort heapLe _
    have hpermKeys :
        List.Perm (heapKeys { t with
          top_providers := List.insertionSort heapLe
            (t.top_providers.map (TopProvidersTracker.updEntry key est
              ((lookupD t.claim_counts key).getD 0))),
          provider_map := TopProvidersTracker.updMapVal key est
            ((lookupD t.claim_counts key).getD 0) t.provider_map }) (heapKeys t) := by
      simp only [heapKeys]
      have h1 := hpermHeap.map ProviderNetFee.provider_npi
      rw [heapKeys_map_updEntry] at h1
      exact h1
    have hkeyMem : key ∈ heapKeys t := (hs.sync key).mp hpres
    refine ⟨⟨?_, ?_, ?_, ?_, ?_⟩, rfl, rfl, rfl, ?_, ?_⟩
    · exact hpermKeys.nodup_iff.mpr hs.ndHeap
    · show (keysD (TopProvidersTracker.updMapVal key est
        ((lookupD t.claim_counts key).getD 0) t.provider_map)).Nodup
      rw [keysD_updMapVal]
      exact hs.ndMap
    · intro x
      show (lookupD (TopProvidersTracker.updMapVal key est
          ((lookupD t.claim_counts key).getD 0) t.provider_map) x).isSome = true ↔ _
      rw [lookupD_isSome_iff_mem, keysD_updMapVal, ← lookupD_isSome_iff_mem,
        hpermKeys.mem_iff]
      exact hs.sync x
    · show (List.insertionSort heapLe _).length =
        (TopProvidersTracker.updMapVal key est
          ((lookupD t.claim_counts key).getD 0) t.provider_map).length
      rw [hpermHeap.length_eq, List.length_map, length_updMapVal]
      exact hs.lenEq
    · show ((List.insertionSort heapLe _).length : Int) ≤ max t.k 0
      rw [hpermHeap.length_eq, List.length_map]
      exact hs.lenLe
    · intro e he
      have he' := hpermHeap.mem_iff.mp he
      rcases List.mem_map.mp he' with ⟨e₀, he₀, rfl⟩
      by_cases hk : e₀.provider_npi = key
      · left
        refine ⟨by simp [hk], ?_⟩
        simp [TopProvidersTracker.updEntry, hk]
      · right
        have heq : TopProvidersTracker.updEntry key est
            ((lookupD t.claim_counts key).getD 0) e₀ = e₀ := by
          simp [TopProvidersTracker.updEntry, hk]
        rw [heq]
        exact ⟨he₀, hk⟩
    · intro _ x
      rw [hpermKeys.mem_iff]
      constructor
      · exact fun hx => Or.inr hx
      · rintro (rfl | hx)
        · exact hkeyMem
        · exact hx
  · -- key not yet tracked
    have hnone : lookupD t.provider_map key = none := by
      cases hl : lookupD t.provider_map key with
      | none => rfl
      | some v => rw [hl] at hpres; simp at hpres
    have hkeyNot : key ∉ heapKeys t := fun hx => hpres ((hs.sync key).mpr hx)
    have hknm : key ∉ keysD t.provider_map := (lookupD_eq_none_iff_not_mem _ _).mp hnone
    unfold TopProvidersTracker.update_top_k at h
    rw [if_neg hpres] at h
    by_cases hlt : (t.top_providers.length : Int) < t.k
    · -- room left: plain admission
      rw [if_pos hlt] at h
      have ht' := Option.some.inj h
      subst ht'
      have hpermHeap := List.perm_orderedInsert heapLe
        { provider_npi := key, net_fee_total := est,
          claim_count := (lookupD t.claim_counts key).getD 0 } t.top_providers
      have hpermKeys :
          List.Perm
            ((List.orderedInsert heapLe
              { provider_npi := key, net_fee_total := est,
                claim_count := (lookupD t.claim_counts key).getD 0 }
              t.top_providers).map ProviderNetFee.provider_npi)
            (key :: heapKeys t) := by
        have h1 := hpermHeap.map ProviderNetFee.provider_npi
        simpa [heapKeys] using h1
      refine ⟨⟨?_, ?_, ?_, ?_, ?_⟩, rfl, rfl, rfl, ?_, ?_⟩
      · exact hpermKeys.nodup_iff.mpr (List.nodup_cons.mpr ⟨hkeyNot, hs.ndHeap⟩)
      · show (keysD (insertD t.provider_map key _)).Nodup
        rw [keysD_insertD_of_absent _ _ _ hnone, List.nodup_append]
        refine ⟨hs.ndMap, List.nodup_singleton key, ?_⟩
        intro a ha ha2
        rw [List.mem_singleton] at ha2
        subst ha2
        exact hknm ha
      · intro x
        show (lookupD (insertD t.provider_map key _) x).isSome = true ↔ _
        rw [show heapKeys { t with
              top_providers := List.orderedInsert heapLe _ t.top_providers,
              provider_map := insertD t.provider_map key _ } =
            (List.orderedInsert heapLe
              { provider_npi := key, net_fee_total := est,
                claim_count := (lookupD t.claim_counts key).getD 0 }
              t.top_providers).map ProviderNetFee.provider_npi from rfl,
          hpermKeys.mem_iff, List.mem_cons]
        by_cases hx : x = key
        · subst hx
          simp [lookupD_insertD_self]
        · rw [lookupD_insertD_ne _ _ _ _ hx]
          simp [hx, hs.sync x]
      · show (List.orderedInsert heapLe _ t.top_providers).length =
          (insertD t.provider_map key _).length
        rw [hpermHeap.length_eq, List.length_cons,
          length_insertD_of_absent _ _ _ hnone, hs.lenEq]
      · show ((List.orderedInsert heapLe _ t.top_providers).length : Int) ≤ max t.k 0
        rw [hpermHeap.length_eq, List.length_cons]
        have hm : t.k ≤ max t.k 0 := le_max_left _ _
        omega
      · intro e he
        have he' := hpermHeap.mem_iff.mp he
        rcases List.mem_cons.mp he' with rfl | hmem
        · exact Or.inl ⟨rfl, rfl⟩
        · right
          refine ⟨hmem, fun hk => ?_⟩
          have : e.provider_npi ∈ heapKeys t := List.mem_map_of_mem _ hmem
          rw [hk] at this
          exact hkeyNot this
      · intro _ x
        rw [show heapKeys { t with
              top_providers := List.orderedInsert heapLe _ t.top_providers,
              provider_map := insertD t.provider_map key _ } =
            (List.orderedInsert heapLe
              { provider_npi := key, net_fee_total := est,
                claim_count := (lookupD t.claim_counts key).getD 0 }
              t.top_providers).map ProviderNetFee.provider_npi from rfl,
          hpermKeys.mem_iff, List.mem_cons]
    · -- collection full: compare with the minimum entry
      rw [if_neg hlt] at h
      cases hheap : t.top_providers with
      | nil =>
          rw [hheap] at h
          simp at h
      | cons removed rest =>
          rw [hheap] at h
          dsimp only at h
          by_cases hgt : removed.net_fee_total < est
          · -- strict improvement: evict the minimum, admit the key
            rw [if_pos hgt] at h
            have ht' := Option.some.inj h
            subst ht'
            have hndheap : (heapKeys t).Nodup := hs.ndHeap
            rw [show heapKeys t = t.top_providers.map ProviderNetFee.provider_npi from rfl,
              hheap, List.map_cons, List.nodup_cons] at hndheap
            have hremNotRest : removed.provider_npi ∉ rest.map ProviderNetFee.provider_npi :=
              hndheap.1
            have hndRest : (rest.map ProviderNetFee.provider_npi).Nodup := hndheap.2
            have hremMemKeys : removed.provider_npi ∈ heapKeys t := by
              rw [show heapKeys t = t.top_providers.map ProviderNetFee.provider_npi from rfl,
                hheap, List.map_cons]
              exact List.mem_cons_self _ _
            have hkeyNe : key ≠ removed.provider_npi := by
              rintro rfl
              exact hkeyNot hremMemKeys
            have hkeyNotRest : key ∉ rest.map ProviderNetFee.provider_npi := by
              intro hx
              apply hkeyNot
              rw [show heapKeys t = t.top_providers.map ProviderNetFee.provider_npi from rfl,
                hheap, List.map_cons]
              exact List.mem_cons_of_mem _ hx
            have hremMap : removed.provider_npi ∈ keysD t.provider_map :=
              (lookupD_isSome_iff_mem _ _).mp ((hs.sync _).mpr hremMemKeys)
            have hkeyNotErase : key ∉ keysD (eraseD t.provider_map removed.provider_npi) := by
              intro hx
              exact hknm ((mem_keysD_eraseD _ _ _).mp hx).1
            have heraseNone :
                lookupD (eraseD t.provider_map removed.provider_npi) key = none :=
              (lookupD_eq_none_iff_not_mem _ _).mpr hkeyNotErase
            have hpermHeap := List.perm_orderedInsert heapLe
              { provider_npi := key, net_fee_total := est,
                claim_count := (lookupD t.claim_counts key).getD 0 } rest
            have hpermKeys :
                List.Perm
                  ((List.orderedInsert heapLe
                    { provider_npi := key, net_fee_total := est,
                      claim_count := (lookupD t.claim_counts key).getD 0 }
                    rest).map ProviderNetFee.provider_npi)
                  (key :: rest.map ProviderNetFee.provider_npi) := by
              have h1 := hpermHeap.map ProviderNetFee.provider_npi
              simpa using h1
            refine ⟨⟨?_, ?_, ?_, ?_, ?_⟩, rfl, rfl, rfl, ?_, ?_⟩
            · exact hpermKeys.nodup_iff.mpr (List.nodup_cons.mpr ⟨hkeyNotRest, hndRest⟩)
            · show (keysD (insertD (eraseD t.provider_map removed.provider_npi) key _)).Nodup
              rw [keysD_insertD_of_absent _ _ _ heraseNone, List.nodup_append]
              refine ⟨nodup_keysD_eraseD _ _ hs.ndMap, List.nodup_singleton key, ?_⟩
              intro a ha ha2
              rw [List.mem_singleton] at ha2
              subst ha2
              exact hkeyNotErase ha
            · intro x
              show (lookupD (insertD (eraseD t.provider_map removed.provider_npi) key _)
                  x).isSome = true ↔ _
              rw [show heapKeys { t with
                    top_providers := List.orderedInsert heapLe _ rest,
                    provider_map := insertD (eraseD t.provider_map removed.provider_npi)
                      key _ } =
                  (List.orderedInsert heapLe
                    { provider_npi := key, net_fee_total := est,
                      claim_count := (lookupD t.claim_counts key).getD 0 }
                    rest).map ProviderNetFee.provider_npi from rfl,
                hpermKeys.mem_iff, List.mem_cons]
              by_cases hx : x = key
              · subst hx
                simp [lookupD_insertD_self]
              · rw [lookupD_insertD_ne _ _ _ _ hx]
                by_cases hxr : x = removed.provider_npi
                · subst hxr
                  rw [lookupD_eraseD_self]
                  simp only [Option.isSome_none, Bool.false_eq_true, false_iff]
                  rintro (hc | hc)
                  · exact hx hc
                  · exact hremNotRest hc
                · rw [lookupD_eraseD_ne _ _ _ hxr, hs.sync x,
                    show heapKeys t = t.top_providers.map ProviderNetFee.provider_npi
                      from rfl, hheap, List.map_cons, List.mem_cons]
                  constructor
                  · rintro (hc | hc)
                    · exact absurd hc hxr
                    · exact Or.inr hc
                  · rintro (hc | hc)
                    · exact absurd hc hx
                    · exact Or.inr hc
            · show (List.orderedInsert heapLe _ rest).length =
                (insertD (eraseD t.provider_map removed.provider_npi) key _).length
              rw [hpermHeap.length_eq, List.length_cons,
                length_insertD_of_absent _ _ _ heraseNone]
              have h1 := length_eraseD_of_mem t.provider_map removed.provider_npi
                hs.ndMap hremMap
              have h2 := hs.lenEq
              rw [hheap] at h2
              simp only [List.length_cons] at h2
              omega
            · show ((List.orderedInsert heapLe _ rest).length : Int) ≤ max t.k 0
              rw [hpermHeap.length_eq, List.length_cons]
              have h2 := hs.lenLe
              rw [hheap] at h2
              simp only [List.length_cons] at h2
              exact h2
            · intro e he
              have he' := hpermHeap.mem_iff.mp he
              rcases List.mem_cons.mp he' with rfl | hmem
              · exact Or.inl ⟨rfl, rfl⟩
              · right
                refine ⟨List.mem_cons_of_mem _ hmem, fun hk => ?_⟩
                apply hkeyNotRest
                rw [← hk]
                exact List.mem_map_of_mem _ hmem
            · rintro (hadm | hadm)
              · exact absurd hadm hpres
              · rw [← hheap] at hadm
                exact absurd hadm hlt
          · -- tie or smaller: the incumbent is retained, nothing changes
            rw [if_neg hgt] at h
            have ht' := Option.some.inj h
            subst ht'
            refine ⟨hs, rfl, rfl, rfl, ?_, ?_⟩
            · intro e he
              right
              refine ⟨hheap ▸ he, fun hk => ?_⟩
              apply hkeyNot
              rw [← hk]
              exact List.mem_map_of_mem _ he
            · rintro (hadm | hadm)
              · exact absurd hadm hpres
              · rw [← hheap] at hadm
                exact absurd hadm hlt

/-- Spec of `add_claim` in terms of the admission-step lemma: the sketch gains the
amount, the count map gains the event, and the heap/index evolve per
`update_top_k_spec` with the *fresh* estimate. -/
theorem add_claim_spec (hf : ℕ → String → ℕ) (t : TopProvidersTracker) (key : String)
    (a : ℚ) (t' : TopProvidersTracker) (hs : Synced t)
    (h : t.add_claim hf key a = some t') :
    Synced t' ∧ t'.k = t.k ∧
    t'.sketch = t.sketch.add hf key a ∧
    t'.claim_counts = insertD t.claim_counts key
      ((lookupD t.claim_counts key).getD 0 + 1) ∧
    (∀ e ∈ t'.top_providers,
        (e.provider_npi = key ∧
          e.net_fee_total = (t.sketch.add hf key a).estimate hf key) ∨
        (e ∈ t.top_providers ∧ e.provider_npi ≠ key)) ∧
    (((lookupD t.provider_map key).isSome = true ∨ (t.top_providers.length : Int) < t.k) →
      ∀ x, x ∈ heapKeys t' ↔ (x = key ∨ x ∈ heapKeys t)) := by
  have hs2 : Synced { t with
      sketch := t.sketch.add hf key a,
      claim_counts := insertD t.claim_counts key
        ((lookupD t.claim_counts key).getD 0 + 1) } :=
    ⟨hs.ndHeap, hs.ndMap, hs.sync, hs.lenEq, hs.lenLe⟩
  exact update_top_k_spec _ key ((t.sketch.add hf key a).estimate hf key) t' hs2 h

/-- Invariant `Synced` and `k` are preserved along any successful run of `add_claim`
events. -/
theorem runEvents_synced (hf : ℕ → String → ℕ) :
    ∀ (events : List (String × ℚ)) (t t' : TopProvidersTracker),
      runEvents hf (some t) events = some t' → Synced t →
      Synced t' ∧ t'.k = t.k := by
  intro events
  induction events with
  | nil =>
      intro t t' h hs
      rw [runEvents_nil] at h
      cases h
      exact ⟨hs, rfl⟩
  | cons e es ih =>
      intro t t' h hs
      rw [runEvents_cons] at h
      cases hstep : t.add_claim hf e.1 e.2 with
      | none => rw [hstep, runEvents_none] at h; exact absurd h (by simp)
      | some t1 =>
          rw [hstep] at h
          obtain ⟨hs1, hk1, _, _, _, _⟩ := add_claim_spec hf t e.1 e.2 t1 hs hstep
          obtain ⟨hs', hk'⟩ := ih t1 t' h hs1
          exact ⟨hs', by rw [hk', hk1]⟩

/-- When the keys of a run are pairwise collision-free (no two distinct keys
share a hashed column in any row), every tracked entry's cached
`estimated_total` stays equal to the live sketch estimate for its key. -/
theorem runEvents_cached_estimates (hf : ℕ → String → ℕ) (K : List String) (W D : ℕ)
    (hcf : ∀ x ∈ K, ∀ y ∈ K, x ≠ y → ∀ i, i < D → hf i x % W ≠ hf i y % W) :
    ∀ (events : List (String × ℚ)) (t t' : TopProvidersTracker),
      runEvents hf (some t) events = some t' → Synced t →
      t.sketch.width = W → t.sketch.depth = D →
      (∀ e ∈ t.top_providers, e.provider_npi ∈ K ∧
        e.net_fee_total = t.sketch.estimate hf e.provider_npi) →
      (∀ x ∈ events.map Prod.fst, x ∈ K) →
      (∀ e ∈ t'.top_providers, e.provider_npi ∈ K ∧
        e.net_fee_total = t'.sketch.estimate hf e.provider_npi) := by
  intro events
  induction events with
  | nil =>
      intro t t' h _ _ _ hinv _
      rw [runEvents_nil] at h
      cases h
      exact hinv
  | cons ev es ih =>
      intro t t' h hs hW hD hinv hkeys
      rw [runEvents_cons] at h
      cases hstep : t.add_claim hf ev.1 ev.2 with
      | none => rw [hstep, runEvents_none] at h; exact absurd h (by simp)
      | some t1 =>
          rw [hstep] at h
          obtain ⟨hs1, _, hsk1, _, hmem, _⟩ := add_claim_spec hf t ev.1 ev.2 t1 hs hstep
          have hevK : ev.1 ∈ K := hkeys ev.1 (by simp)
          have hinv1 : ∀ e ∈ t1.top_providers, e.provider_npi ∈ K ∧
              e.net_fee_total = t1.sketch.estimate hf e.provider_npi := by
            intro e he
            rcases hmem e he with ⟨hnpi, hfee⟩ | ⟨hold, hne⟩
            · refine ⟨hnpi ▸ hevK, ?_⟩
              rw [hsk1, hnpi, hfee]
            · obtain ⟨heK, hcache⟩ := hinv e hold
              refine ⟨heK, ?_⟩
              rw [hsk1, estimate_add_ne hf t.sketch e.provider_npi ev.1 ev.2 ?_]
              · exact hcache
              · intro i hi
                rw [hW]
                rw [hD] at hi
                exact hcf e.provider_npi heK ev.1 hevK hne i hi
          refine ih t1 t' h hs1 ?_ ?_ hinv1 (fun x hx => hkeys x (by simp [hx]))
          · rw [hsk1, CountMinSketch.add_width]; exact hW
          · rw [hsk1, CountMinSketch.add_depth]; exact hD

/-- As long as the total number of distinct keys (already tracked plus
arriving) stays within `k`, every new key is admitted and none is evicted:
the final tracked key set is exactly the keys seen. -/
theorem runEvents_keys (hf : ℕ → String → ℕ) :
    ∀ (events : List (String × ℚ)) (t t' : TopProvidersTracker),
      runEvents hf (some t) events = some t' → Synced t →
      ((heapKeys t ++ events.map Prod.fst).toFinset.card : Int) ≤ t.k →
      (heapKeys t').toFinset = (heapKeys t ++ events.map Prod.fst).toFinset := by
  intro events
  induction events with
  | nil =>
      intro t t' h _ _
      rw [runEvents_nil] at h
      cases h
      simp
  | cons ev es ih =>
      intro t t' h hs hcap
      rw [runEvents_cons] at h
      have hadm : (lookupD t.provider_map ev.1).isSome = true ∨
          (t.top_providers.length : Int) < t.k := by
        by_cases hp : (lookupD t.provider_map ev.1).isSome = true
        · exact Or.inl hp
        · right
          have hnot : ev.1 ∉ heapKeys t := fun hx => hp ((hs.sync ev.1).mpr hx)
          have hlen : (heapKeys t).toFinset.card = t.top_providers.length := by
            rw [List.toFinset_card_of_nodup hs.ndHeap]
            simp [heapKeys]
          have hsub : insert ev.1 (heapKeys t).toFinset ⊆
              (heapKeys t ++ (ev :: es).map Prod.fst).toFinset := by
            intro a ha
            rw [Finset.mem_insert] at ha
            rw [List.mem_toFinset, List.mem_append]
            rcases ha with rfl | ha
            · exact Or.inr (by simp)
            · exact Or.inl (List.mem_toFinset.mp ha)
          have hcard := Finset.card_le_card hsub
          rw [Finset.card_insert_of_not_mem (by rw [List.mem_toFinset]; exact hnot)] at hcard
          omega
      cases hstep : t.add_claim hf ev.1 ev.2 with
      | none => rw [hstep, runEvents_none] at h; exact absurd h (by simp)
      | some t1 =>
          rw [hstep] at h
          obtain ⟨hs1, hk1, _, _, _, hiff⟩ := add_claim_spec hf t ev.1 ev.2 t1 hs hstep
          have hkeys1 : (heapKeys t1).toFinset = insert ev.1 (heapKeys t).toFinset := by
            ext a
            rw [List.mem_toFinset, hiff hadm a, Finset.mem_insert, List.mem_toFinset]
          have hsetEq : (heapKeys t1 ++ es.map Prod.fst).toFinset =
              (heapKeys t ++ (ev :: es).map Prod.fst).toFinset := by
            rw [List.toFinset_append, List.toFinset_append, hkeys1]
            ext a
            simp only [Finset.mem_union, Finset.mem_insert, List.map_cons,
              List.toFinset_cons]
            tauto
          have hfin := ih t1 t' h hs1 (by rw [hsetEq, hk1]; exact hcap)
          rw [hfin, hsetEq]

/-- Full frame of a fresh tracker (used to extract the construction state). -/
theorem tracker_init_elim {k w d : Int} {t0 : TopProvidersTracker}
    (h : TopProvidersTracker.init k w d = some t0) :
    t0.k = k ∧ t0.sketch.width = w.toNat ∧ t0.sketch.depth = d.toNat ∧
    t0.sketch.table = (fun _ _ => 0) ∧ t0.sketch.total_sum = 0 ∧
    t0.top_providers = [] ∧ t0.provider_map = [] ∧ t0.claim_counts = [] := by
  unfold TopProvidersTracker.init at h
  cases hcms : CountMinSketch.init w d with
  | none => rw [hcms] at h; simp at h
  | some s =>
      rw [hcms] at h
      simp only [Option.map_some'] at h
      cases h
      obtain ⟨h1, h2, h3, h4⟩ := CountMinSketch.init_elim hcms
      exact ⟨rfl, h1, h2, h3, h4, rfl, rfl, rfl⟩

/-- If every cached total coincides with the live estimate, the discrepancy
scan of `verify_accuracy` flags nothing. -/
theorem discrepancies_eq_nil (hf : ℕ → String → ℕ) (t : TopProvidersTracker)
    (h : ∀ e ∈ t.top_providers, e.net_fee_total = t.sketch.estimate hf e.provider_npi) :
    (verify_accuracy hf t).discrepancies = [] := by
  unfold verify_accuracy
  dsimp only
  rw [List.filterMap_eq_nil_iff]
  intro p hp
  rw [← h p hp, sub_self, if_neg (by norm_num [ratAbs])]

/-! ## Concrete instantiation material for witnesses and counterexamples -/

/-- A trivial hash function for concrete runs.  With `width = 1` the column
is forced to `0` for any hash function (the source's SHA-256 included), so
counterexamples built on `width = 1` do not depend on this choice. -/
def hf0 : ℕ → String → ℕ := fun _ _ => 0

/-- A collision-free hash for the two keys of the C2 witness run. -/
def hfAB : ℕ → String → ℕ := fun _ s => if s = "A" then 0 else 1

def junkSketch : CountMinSketch :=
  { width := 0, depth := 0, table := fun _ _ => 0, total_sum := 0 }

def junkTracker : TopProvidersTracker :=
  { k := 0, sketch := junkSketch, top_providers := [], provider_map := [],
    claim_counts := [] }

/-! ## C1 — estimates never undercount -/

/-- C1: for every key and every finite sequence of `add` calls with
non-negative amounts on a freshly constructed sketch (positive dimensions),
`estimate(key)` is at least the exact sum of the amounts added under that
key — collisions only inflate. -/
theorem c1_estimate_never_undercounts (hf : ℕ → String → ℕ) (w d : Int)
    (s0 : CountMinSketch) (hinit : CountMinSketch.init w d = some s0)
    (_hw : 0 < w) (hd : 0 < d) (adds : List (String × ℚ)) (key : String)
    (hpos : ∀ e ∈ adds, 0 ≤ e.2) :
    trueTotal key adds ≤ (runAdds hf s0 adds).estimate hf key := by
  obtain ⟨hW, hD, hT, _⟩ := CountMinSketch.init_elim hinit
  have hd0 : 0 < s0.depth := by rw [hD]; omega
  have hdepth : (runAdds hf s0 adds).depth = s0.depth := runAdds_depth hf adds s0
  have hwidth : (runAdds hf s0 adds).width = s0.width := runAdds_width hf adds s0
  unfold CountMinSketch.estimate
  apply le_minimumD
  · rw [← List.length_pos]
    simp only [List.length_map, List.length_range, hdepth]
    exact hd0
  · intro a ha
    rcases List.mem_map.mp ha with ⟨i, hi, rfl⟩
    rw [List.mem_range, hdepth] at hi
    have hcell := runAdds_cell_ge hf key adds s0 hpos i hi
    rw [hT] at hcell
    show trueTotal key adds ≤
      (runAdds hf s0 adds).table i ((runAdds hf s0 adds).hashIdx hf i key)
    unfold CountMinSketch.hashIdx
    rw [hwidth]
    simpa using hcell

def c1s0 : CountMinSketch := (CountMinSketch.init 2 1).getD junkSketch

theorem c1_witness :
    trueTotal "A" [("A", 3), ("B", 4)] ≤
      (runAdds hf0 c1s0 [("A", 3), ("B", 4)]).estimate hf0 "A" :=
  c1_estimate_never_undercounts hf0 2 1 c1s0 rfl (by decide) (by decide)
    [("A", 3), ("B", 4)] "A" (by decide)

/-! ## C2 — the accuracy diagnostic after add-event-only sequences -/

/-- C2 as stated is false: with `width = 1` (any hash collides every pair
of keys) two `add_event` calls for distinct keys leave the first key's
cached estimate one hundred monetary units below the live estimate, so
`verify_accuracy().discrepancies` is non-empty. -/
theorem c2_counterexample :
    (runEvents hf0 (TopProvidersTracker.init 10 1 1) [("A", 100), ("B", 100)]).map
      (fun t => (verify_accuracy hf0 t).discrepancies) ≠ some [] := by
  with_unfolding_all decide

/-- C2 (amended): after any sequence consisting only of `add_event` calls
in which no two distinct event keys collide in any sketch row, every cached
`estimated_total` equals the live estimate and the discrepancies list of
`verify_accuracy()` is empty.  (A colliding later event for a different key
can inflate a tracked key's live estimate past the one-cent tolerance while
its cached value stays stale — see the counterexample.) -/
theorem c2_no_collision_no_discrepancy (hf : ℕ → String → ℕ) (k w d : Int)
    (events : List (String × ℚ)) (t0 t : TopProvidersTracker)
    (hinit : TopProvidersTracker.init k w d = some t0)
    (hrun : runEvents hf (some t0) events = some t)
    (hcf : ∀ x ∈ events.map Prod.fst, ∀ y ∈ events.map Prod.fst, x ≠ y →
        ∀ i, i < d.toNat → hf i x % w.toNat ≠ hf i y % w.toNat) :
    (verify_accuracy hf t).discrepancies = [] := by
  obtain ⟨_, hW, hD, _, _, hheap0, _, _⟩ := tracker_init_elim hinit
  have hs0 : Synced t0 := Synced_init hinit
  have hinv0 : ∀ e ∈ t0.top_providers, e.provider_npi ∈ events.map Prod.fst ∧
      e.net_fee_total = t0.sketch.estimate hf e.provider_npi := by
    intro e he
    rw [hheap0] at he
    simp at he
  have hinv := runEvents_cached_estimates hf (events.map Prod.fst) w.toNat d.toNat hcf
    events t0 t hrun hs0 hW hD hinv0 (fun x hx => hx)
  exact discrepancies_eq_nil hf t fun e he => (hinv e he).2

def c2wt : TopProvidersTracker :=
  (runEvents hfAB (TopProvidersTracker.init 10 2 1) [("A", 3), ("B", 4)]).getD junkTracker

theorem c2_witness : (verify_accuracy hfAB c2wt).discrepancies = [] :=
  c2_no_collision_no_discrepancy hfAB 10 2 1 [("A", 3), ("B", 4)]
    ((TopProvidersTracker.init 10 2 1).getD junkTracker) c2wt rfl
    (by with_unfolding_all rfl) (by decide)

/-! ## C3 — negative amounts are not rejected -/

def c3s0 : CountMinSketch := (CountMinSketch.init 3 2).getD junkSketch

def c3t0 : TopProvidersTracker := (TopProvidersTracker.init 2 3 2).getD junkTracker

/-- C3 evaluated on the code: neither `add` nor `add_claim` validates the
amount.  Passing −5 raises no error and fully mutates the state: the hashed
cells and `total_sum` go negative and the event is counted. -/
theorem c3_negative_amount_accepted :
    (c3s0.add hf0 "1234567890" (-5)).total_sum = -5 ∧
    (c3s0.add hf0 "1234567890" (-5)).table 0 0 = -5 ∧
    (c3t0.add_claim hf0 "1234567890" (-5)).map (fun t => t.sketch.total_sum) =
      some (-5) ∧
    (c3t0.add_claim hf0 "1234567890" (-5)).map
      (fun t => lookupD t.claim_counts "1234567890") = some (some 1) := by
  with_unfolding_all decide

/-! ## C4 — heap/index key sets, sizes, and the k bound -/

/-- C4: in every state reachable from a freshly constructed tracker
(positive `k`) by `add_event` calls, the bounded collection and the
membership index hold exactly the same key set, their sizes are equal, and
the size never exceeds `k`. -/
theorem c4_bounded_collection_sync (hf : ℕ → String → ℕ) (k w d : Int)
    (events : List (String × ℚ)) (t0 t : TopProvidersTracker)
    (hinit : TopProvidersTracker.init k w d = some t0)
    (hrun : runEvents hf (some t0) events = some t)
    (hk : 0 < k) :
    t.top_providers.length = t.provider_map.length ∧
    (keysD t.provider_map).toFinset = (heapKeys t).toFinset ∧
    (t.top_providers.length : Int) ≤ k := by
  obtain ⟨hs, hkk⟩ := runEvents_synced hf events t0 t hrun (Synced_init hinit)
  obtain ⟨hk0, _, _, _, _, _, _, _⟩ := tracker_init_elim hinit
  refine ⟨hs.lenEq, ?_, ?_⟩
  · ext a
    rw [List.mem_toFinset, List.mem_toFinset, ← lookupD_isSome_iff_mem]
    exact hs.sync a
  · have hle := hs.lenLe
    rw [hkk, hk0, max_eq_left (le_of_lt hk)] at hle
    exact hle

def c4t : TopProvidersTracker :=
  (runEvents hf0 (TopProvidersTracker.init 2 1 1)
    [("A", 5), ("B", 7), ("C", 1)]).getD junkTracker

theorem c4_witness :
    c4t.top_providers.length = c4t.provider_map.length ∧
    (keysD c4t.provider_map).toFinset = (heapKeys c4t).toFinset ∧
    (c4t.top_providers.length : Int) ≤ 2 :=
  c4_bounded_collection_sync hf0 2 1 1 [("A", 5), ("B", 7), ("C", 1)]
    ((TopProvidersTracker.init 2 1 1).getD junkTracker) c4t rfl
    (by with_unfolding_all rfl) (by decide)

/-! ## C5 — construction validation -/

/-- C5 as stated is false: construction with `k = 0`, `width = 0` or even
negative `k` succeeds — no configuration validation exists. -/
theorem c5_counterexample :
    (TopProvidersTracker.init 0 2719 5).isSome = true ∧
    (CountMinSketch.init 0 5).isSome = true ∧
    (TopProvidersTracker.init (-3) 2719 5).isSome = true := by
  decide

/-- C5 (amended): construction fails only for a *negative* width or depth
(numpy rejects negative array dimensions); zero width or depth is accepted,
and `k` is never validated — zero or negative `k` also yields an instance. -/
theorem c5_construction_validation (k w d : Int) :
    ((w < 0 ∨ d < 0) →
      TopProvidersTracker.init k w d = none ∧ CountMinSketch.init w d = none) ∧
    (0 ≤ w → 0 ≤ d →
      (TopProvidersTracker.init k w d).isSome = true ∧
      (CountMinSketch.init w d).isSome = true) := by
  constructor
  · intro hneg
    have hcms : CountMinSketch.init w d = none := by
      unfold CountMinSketch.init
      rw [if_pos hneg]
    refine ⟨?_, hcms⟩
    unfold TopProvidersTracker.init
    rw [hcms]
    rfl
  · intro hw hd
    have hcond : ¬ (w < 0 ∨ d < 0) := by omega
    constructor
    · unfold TopProvidersTracker.init CountMinSketch.init
      rw [if_neg hcond]
      rfl
    · unfold CountMinSketch.init
      rw [if_neg hcond]
      rfl

theorem c5_witness :
    (TopProvidersTracker.init 7 (-1) 5 = none ∧ CountMinSketch.init (-1) 5 = none) ∧
    ((TopProvidersTracker.init 7 0 5).isSome = true ∧
      (CountMinSketch.init 0 5).isSome = true) :=
  ⟨(c5_construction_validation 7 (-1) 5).1 (Or.inl (by decide)),
   (c5_construction_validation 7 0 5).2 (by decide) (by decide)⟩

/-! ## C6 — ties at the eviction threshold never admit -/

/-- Branch of `_update_top_k` taken when the collection is full and the
candidate's estimate does not strictly beat the minimum: nothing changes. -/
theorem update_top_k_no_admit (t : TopProvidersTracker) (key : String) (est : ℚ)
    (habs : lookupD t.provider_map key = none)
    (hnotlt : ¬ ((t.top_providers.length : Int) < t.k))
    (hle : ∀ p ∈ t.top_providers, est ≤ p.net_fee_total)
    (hne : t.top_providers ≠ []) :
    t.update_top_k key est = some t := by
  unfold TopProvidersTracker.update_top_k
  rw [if_neg (by rw [habs]; simp), if_neg hnotlt]
  cases hheap : t.top_providers with
  | nil => exact absurd hheap hne
  | cons removed rest =>
      dsimp only
      rw [if_neg (not_lt.mpr (hle removed (by rw [hheap]; exact List.mem_cons_self _ _)))]

/-- C6: when the bounded collection is full and `add_event` arrives for an
untracked key whose fresh estimate is less than or equal to the current
minimum entry's `estimated_total` (i.e. ≤ every tracked value), no eviction
or admission happens: heap and membership index are returned unchanged. -/
theorem c6_tie_no_eviction (hf : ℕ → String → ℕ) (t : TopProvidersTracker)
    (key : String) (amount : ℚ)
    (habs : lookupD t.provider_map key = none)
    (hfull : (t.top_providers.length : Int) = t.k)
    (hne : t.top_providers ≠ [])
    (hle : ∀ p ∈ t.top_providers,
      (t.sketch.add hf key amount).estimate hf key ≤ p.net_fee_total) :
    (t.add_claim hf key amount).map TopProvidersTracker.top_providers =
      some t.top_providers ∧
    (t.add_claim hf key amount).map TopProvidersTracker.provider_map =
      some t.provider_map := by
  have hnotlt : ¬ ((t.top_providers.length : Int) < t.k) := by
    rw [hfull]
    exact lt_irrefl _
  have hres : t.add_claim hf key amount = some { t with
      sketch := t.sketch.add hf key amount,
      claim_counts := insertD t.claim_counts key
        ((lookupD t.claim_counts key).getD 0 + 1) } :=
    update_top_k_no_admit _ key _ habs hnotlt hle hne
  rw [hres]
  exact ⟨rfl, rfl⟩

def c6t : TopProvidersTracker :=
  { k := 1,
    sketch := { width := 1, depth := 1, table := fun _ _ => 50, total_sum := 50 },
    top_providers := [{ provider_npi := "A", net_fee_total := 100, claim_count := 1 }],
    provider_map := [("A", { provider_npi := "A", net_fee_total := 100, claim_count := 1 })],
    claim_counts := [("A", 1)] }

theorem c6_witness :
    (c6t.add_claim hf0 "B" 10).map TopProvidersTracker.top_providers =
      some c6t.top_providers ∧
    (c6t.add_claim hf0 "B" 10).map TopProvidersTracker.provider_map =
      some c6t.provider_map :=
  c6_tie_no_eviction hf0 c6t "B" 10 (by decide) (by decide) (by decide)
    (by with_unfolding_all decide)

/-! ## C7 — merge requires identical dimensions, then purely accumulates -/

/-- C7: `merge(other)` fails with a dimension-mismatch error (leaving the
receiver untouched — in the model the caller keeps the unmodified sketch)
whenever widths or depths differ; with matching dimensions it element-wise
adds the other table into the receiver's and adds the other `total_sum`,
changing nothing else (dimensions stay the receiver's). -/
theorem c7_merge_dimension_check (s other : CountMinSketch) :
    ((s.width ≠ other.width ∨ s.depth ≠ other.depth) → s.merge other = none) ∧
    (s.width = other.width → s.depth = other.depth →
      s.merge other =
        some { width := s.width, depth := s.depth,
               table := fun i j => s.table i j + other.table i j,
               total_sum := s.total_sum + other.total_sum }) := by
  constructor
  · intro h
    unfold CountMinSketch.merge
    rw [if_pos h]
  · intro hw hd
    unfold CountMinSketch.merge
    rw [if_neg (by push_neg; exact ⟨hw, hd⟩)]

def c7a : CountMinSketch :=
  { width := 2, depth := 1, table := fun _ _ => 3, total_sum := 6 }

def c7b : CountMinSketch :=
  { width := 2, depth := 1, table := fun _ _ => 4, total_sum := 8 }

def c7c : CountMinSketch :=
  { width := 3, depth := 1, table := fun _ _ => 1, total_sum := 3 }

theorem c7_witness :
    c7a.merge c7c = none ∧
    c7a.merge c7b =
      some { width := c7a.width, depth := c7a.depth,
             table := fun i j => c7a.table i j + c7b.table i j,
             total_sum := c7a.total_sum + c7b.total_sum } :=
  ⟨(c7_merge_dimension_check c7a c7c).1 (Or.inl (by decide)),
   (c7_merge_dimension_check c7a c7b).2 rfl rfl⟩

/-! ## C8 — merge commutes over a common base for matching dimensions -/

/-- C8: for sketches `a`, `b` whose dimensions match a common base state,
merging `a` then `b` into the base produces exactly the same sketch (table
and `total_sum`) as merging `b` then `a`. -/
theorem c8_merge_commutes (base a b : CountMinSketch)
    (haw : a.width = base.width) (had : a.depth = base.depth)
    (hbw : b.width = base.width) (hbd : b.depth = base.depth) :
    (base.merge a).bind (fun s => s.merge b) =
      (base.merge b).bind (fun s => s.merge a) := by
  have h1 : ¬ (base.width ≠ a.width ∨ base.depth ≠ a.depth) := by
    push_neg
    exact ⟨haw.symm, had.symm⟩
  have h2 : ¬ (base.width ≠ b.width ∨ base.depth ≠ b.depth) := by
    push_neg
    exact ⟨hbw.symm, hbd.symm⟩
  unfold CountMinSketch.merge
  rw [if_neg h1, if_neg h2]
  rw [Option.some_bind', Option.some_bind']
  dsimp only
  rw [if_neg h2, if_neg h1]
  refine congrArg some ?_
  congr 1
  · funext i j
    ring
  · ring

def c8base : CountMinSketch :=
  { width := 2, depth := 2, table := fun i j => (i : ℚ) + (j : ℚ), total_sum := 1 }

def c8a : CountMinSketch :=
  { width := 2, depth := 2, table := fun _ _ => 2, total_sum := 5 }

def c8b : CountMinSketch :=
  { width := 2, depth := 2, table := fun _ _ => 7, total_sum := 9 }

theorem c8_witness :
    (c8base.merge c8a).bind (fun s => s.merge c8b) =
      (c8base.merge c8b).bind (fun s => s.merge c8a) :=
  c8_merge_commutes c8base c8a c8b rfl rfl rfl rfl

/-! ## C9 — get_top_k: all entries, sorted descending, M entries for M < k keys -/

/-- C9: in every reachable tracker state — with no restriction on how many
distinct keys were ever added, so post-eviction states included —
`get_top_k()` returns exactly the entries currently in the bounded
collection (a permutation of it), sorted by `estimated_total` descending;
and when the run only ever added `M < k` distinct keys, it returns exactly
`M` entries. -/
theorem c9_get_top_k_sorted (hf : ℕ → String → ℕ) (k w d : Int)
    (events : List (String × ℚ)) (t0 t : TopProvidersTracker)
    (hinit : TopProvidersTracker.init k w d = some t0)
    (hrun : runEvents hf (some t0) events = some t) :
    List.Perm t.get_top_k t.top_providers ∧
    List.Sorted heapGe t.get_top_k ∧
    ((((events.map Prod.fst).dedup.length : Int) < k) →
      t.get_top_k.length = (events.map Prod.fst).dedup.length) := by
  obtain ⟨hs, _⟩ := runEvents_synced hf events t0 t hrun (Synced_init hinit)
  obtain ⟨hk0, _, _, _, _, hheap0, _, _⟩ := tracker_init_elim hinit
  have hperm : List.Perm t.get_top_k t.top_providers :=
    List.perm_insertionSort heapGe _
  refine ⟨hperm, List.sorted_insertionSort heapGe _, fun hM => ?_⟩
  have h0 : heapKeys t0 = [] := by simp [heapKeys, hheap0]
  have h4 : (heapKeys t).toFinset = (events.map Prod.fst).toFinset := by
    have hcap : (((heapKeys t0 ++ events.map Prod.fst).toFinset.card : Int)) ≤ t0.k := by
      rw [h0, List.nil_append, List.card_toFinset, hk0]
      exact le_of_lt hM
    have hfin := runEvents_keys hf events t0 t hrun (Synced_init hinit) hcap
    rw [h0, List.nil_append] at hfin
    exact hfin
  have h1 : t.get_top_k.length = t.top_providers.length := hperm.length_eq
  have h2 : (heapKeys t).length = t.top_providers.length := List.length_map _ _
  have h3 : (heapKeys t).toFinset.card = (heapKeys t).length :=
    List.toFinset_card_of_nodup hs.ndHeap
  have h4c : (heapKeys t).toFinset.card = (events.map Prod.fst).toFinset.card := by
    rw [h4]
  have h5 : (events.map Prod.fst).toFinset.card = (events.map Prod.fst).dedup.length :=
    List.card_toFinset _
  omega

def c9t : TopProvidersTracker :=
  (runEvents hf0 (TopProvidersTracker.init 3 1 1)
    [("A", 5), ("B", 7), ("A", 2)]).getD junkTracker

theorem c9_witness :
    List.Perm c9t.get_top_k c9t.top_providers ∧
    List.Sorted heapGe c9t.get_top_k ∧
    (((([("A", (5 : ℚ)), ("B", 7), ("A", 2)].map Prod.fst).dedup.length : Int) < 3) →
      c9t.get_top_k.length =
        (([("A", (5 : ℚ)), ("B", 7), ("A", 2)].map Prod.fst).dedup.length)) :=
  c9_get_top_k_sorted hf0 3 1 1 [("A", 5), ("B", 7), ("A", 2)]
    ((TopProvidersTracker.init 3 1 1).getD junkTracker) c9t rfl
    (by with_unfolding_all rfl)

/-! ## C10 — get_top_k and verify_accuracy are pure reads -/

/-- C10: the state-transformer views of `get_top_k` and `verify_accuracy`
return the tracker exactly as received: `sorted` builds a fresh list and the
stats dict is built from reads only — neither call writes the sketch table,
`total_sum`, the bounded collection, the membership index or the event-count
map. -/
theorem c10_queries_are_pure_reads (hf : ℕ → String → ℕ) (t : TopProvidersTracker) :
    (get_top_k_st t).2 = t ∧ (verify_accuracy_st hf t).2 = t :=
  ⟨rfl, rfl⟩
